import Mathlib

/-!
Shallow embedding of the dendrogram-relevance core of the hieclust repository
(src/main.py: get_descendants, is_child, filter_clustering; src/batch.py:
the precision limiarization step of find_clusters_batch), together with a
well-formedness predicate for linkage ("merge") matrices and proofs of the
behavioural properties claimed for this code.

Merge distances are modelled as rationals; the Python floats never matter for
the claims, which are exact arithmetic on the merge matrix entries.  Partial
operations of the source (indexing past the end of the matrix, np.max of an
empty selection) are modelled by an Option result.
-/

/-- One row of a linkage matrix, as produced by scipy's linkage: the ids of
the two merged nodes, the merge distance, and the size (leaf count) of the
resulting cluster.  Merge k of a matrix over n leaves creates node id n + k. -/
structure MergeRow where
  left : Nat
  right : Nat
  dist : ℚ
  size : Nat
deriving DecidableEq, Repr

/-- Fuel-indexed recursion realizing main.py's get_descendants: a leaf id is
its own sole leaf descendant; an internal id reads its row and concatenates
the two recursive results, appending the two direct children to the link list.
On fuel exhaustion or a missing row it returns empty lists (the Python would
recurse forever or raise only on malformed input, which the claims exclude). -/
def get_descendants_fuel (z : List MergeRow) (nleaves : Nat) :
    Nat → Nat → List Nat × List Nat
  | 0, _ => ([], [])
  | fuel + 1, clustid =>
    if clustid < nleaves then ([clustid], [])
    else
      match z.get? (clustid - nleaves) with
      | none => ([], [])
      | some row =>
        let p1 := get_descendants_fuel z nleaves fuel row.left
        let p2 := get_descendants_fuel z nleaves fuel row.right
        (p1.1 ++ p2.1, p1.2 ++ p2.2 ++ [row.left, row.right])

/-- Embedding of main.py's get_descendants(z, nleaves, clustid): the pair
(leaf ids, link ids) below the node clustid.  The fuel clustid + 1 suffices
because in a well-formed matrix children ids are strictly below the parent id. -/
def get_descendants (z : List MergeRow) (nleaves : Nat) (clustid : Nat) :
    List Nat × List Nat :=
  get_descendants_fuel z nleaves (clustid + 1) clustid

/-- Embedding of main.py's is_child(parent, child, linkageret): recompute the
leaf count as linkageret.shape[0] + 1, take the descendants of parent, and
test membership of child among either the leaf ids or the link ids. -/
def is_child (parent child : Nat) (linkageret : List MergeRow) : Bool :=
  let nleaves := linkageret.length + 1
  let p := get_descendants linkageret nleaves parent
  decide (child ∈ p.1) || decide (child ∈ p.2)

/-- Row indices whose size column equals clustcount, in matrix order: the
np.where(linkageret[:, 3] == clustcount)[0] of filter_clustering. -/
def joininds (z : List MergeRow) (clustcount : Nat) : List Nat :=
  (List.range z.length).filter fun k =>
    match z.get? k with
    | some row => row.size == clustcount
    | none => false

/-- The inner loop of filter_clustering's scan for one candidate size: each
row of that size yields candidate id clid = rowIndex + n, appended unless it
is an ancestor of an already selected id.  There is no bound check inside
this loop. -/
def scan_size (z : List MergeRow) (n clustcount : Nat) (clustids : List Nat) :
    List Nat :=
  (joininds z clustcount).foldl
    (fun acc joinidx =>
      let clid := joinidx + n
      if acc.all fun other => ! is_child clid other z then acc ++ [clid]
      else acc)
    clustids

/-- The outer loop of filter_clustering's scan: iterate over the candidate
sizes, breaking before a size is scanned once the selection has reached
minnclusters elements. -/
def select_clustids_go (z : List MergeRow) (n minnclusters : Nat) :
    List Nat → List Nat → List Nat
  | [], acc => acc
  | c :: cs, acc =>
    if minnclusters ≤ acc.length then acc
    else select_clustids_go z n minnclusters cs (scan_size z n c acc)

/-- The complete candidate scan of filter_clustering: sizes range over
range(minclustsize, n), starting from an empty selection. -/
def select_clustids (z : List MergeRow) (n minclustsize minnclusters : Nat) :
    List Nat :=
  select_clustids_go z n minnclusters
    (List.range' minclustsize (n - minclustsize)) []

/-- The merge distance linkageret[cl - n, 2] read by filter_clustering for a
cluster id cl (0 when the row does not exist; the function only reads rows
that do exist on the executions the claims are about). -/
def dist_of (z : List MergeRow) (n cl : Nat) : ℚ :=
  ((z.get? (cl - n)).map MergeRow.dist).getD 0

/-- The root merge distance L = linkageret[-1, 2] (0 on an empty matrix). -/
def Lroot (z : List MergeRow) : ℚ :=
  ((z.getLast?).map MergeRow.dist).getD 0

/-- The parent search of filter_clustering for two or more selected clusters:
m = np.max(clustids); scan i over range(m + 1, 2n - 1) and keep the first id
that is an ancestor of every selected cluster; the initial value 2n - 1
survives when no scanned id qualifies. -/
def find_parent (z : List MergeRow) (n : Nat) (clustids : List Nat) : Nat :=
  let m := clustids.foldl max 0
  ((List.range' (m + 1) (2 * n - 1 - (m + 1))).find? fun i =>
      clustids.all fun cl => is_child i cl z).getD (2 * n - 1)

/-- Embedding of main.py's filter_clustering(data, linkageret, minclustsize,
minnclusters), with n = data.shape[0] passed directly.  none models the
source raising: z[-1] on an empty matrix, np.max of an empty selection, and
the read linkageret[parent - n, 2] when the parent id has no row. -/
def filter_clustering (n : Nat) (z : List MergeRow)
    (minclustsize minnclusters : Nat) : Option (List Nat × ℚ) :=
  match z.getLast? with
  | none => none
  | some lastrow =>
    let L := lastrow.dist
    let clustids := select_clustids z n minclustsize minnclusters
    match clustids with
    | [c] => some ([c], (L - dist_of z n c) / L)
    | [] => none
    | cs =>
      let parent := find_parent z n cs
      match z.get? (parent - n) with
      | none => none
      | some _ =>
        let acc := (cs.map (dist_of z n)).sum / (cs.length : ℚ)
        some ((cs.insertionSort (· ≤ ·)).take 2, (L - acc) / L)

/-- Parent node exactly as the specification words it: the smallest internal
id, scanned from max(selected) + 1 up to root - 1, that is an ancestor of
every selected cluster id, falling back to the root id 2n - 2 when none is
found.  Stated from the spec to be compared against find_parent. -/
def parent_spec (z : List MergeRow) (n : Nat) (clustids : List Nat) : Nat :=
  let m := clustids.foldl max 0
  ((List.range' (m + 1) (2 * n - 2 - (m + 1))).find? fun i =>
      clustids.all fun cl => is_child i cl z).getD (2 * n - 2)

/-- The precision limiarization of find_clusters_batch (src/batch.py): when
the predicted cluster count equals the ground truth but the max precision is
below the threshold, the predicted count is flipped by npred = npred % 2 + 1. -/
def adjust_npred (ngtruth npred : Nat) (prec precthresh : ℚ) : Nat :=
  if ngtruth = npred ∧ prec < precthresh then npred % 2 + 1 else npred

/-- Accumulation of one realization's relevance into the 2-slot vector of
find_clusters_batch: rels[distrib][linkagemeth][npred - 1].append(rel), with
npred already limiarized by adjust_npred. -/
def record_rel (slots : List ℚ × List ℚ) (ngtruth npred : Nat)
    (prec precthresh : ℚ) (rel : ℚ) : List ℚ × List ℚ :=
  let np := adjust_npred ngtruth npred prec precthresh
  if np - 1 = 0 then (slots.1 ++ [rel], slots.2) else (slots.1, slots.2 ++ [rel])

/-- Strict descendant relation generated by the matrix rows: each row's two
children are descendants of the node the row creates, transitively. -/
inductive Desc (z : List MergeRow) (n : Nat) : Nat → Nat → Prop
  | left : ∀ k (h : k < z.length), Desc z n (n + k) (z.get ⟨k, h⟩).left
  | right : ∀ k (h : k < z.length), Desc z n (n + k) (z.get ⟨k, h⟩).right
  | trans : ∀ a b c, Desc z n a b → Desc z n b c → Desc z n a c

/-- Well-formed linkage matrix over n leaves: n - 1 rows, each row's children
created strictly earlier than the row's own node, every node merged at most
once (children entries pairwise distinct over the whole matrix), and each
size column entry equal to the number of leaves below the created node. -/
structure WF (z : List MergeRow) (n : Nat) : Prop where
  two_le : 2 ≤ n
  len : z.length = n - 1
  children_lt : ∀ k (h : k < z.length),
    (z.get ⟨k, h⟩).left < n + k ∧ (z.get ⟨k, h⟩).right < n + k
  children_uniq : ∀ j (hj : j < z.length) k (hk : k < z.length),
    ((z.get ⟨j, hj⟩).left = (z.get ⟨k, hk⟩).left → j = k) ∧
    ((z.get ⟨j, hj⟩).right = (z.get ⟨k, hk⟩).right → j = k) ∧
    (z.get ⟨j, hj⟩).left ≠ (z.get ⟨k, hk⟩).right
  sizes : ∀ k (h : k < z.length),
    (z.get ⟨k, h⟩).size = (get_descendants z n (n + k)).1.length

/-- Single linkage matrix of the six 1-D points [10, 20, 100, 200, 400, 1000]:
adjacent gaps 10, 80, 100, 200, 600 are merged in increasing order, so the
rows chain the growing left cluster with the next point. -/
def z6 : List MergeRow :=
  [⟨0, 1, 10, 2⟩, ⟨2, 6, 80, 3⟩, ⟨3, 7, 100, 4⟩, ⟨4, 8, 200, 5⟩,
   ⟨5, 9, 600, 6⟩]

/-- A 4-leaf matrix with two disjoint size-2 merges below the root: leaves
0,1 merge at distance 1, leaves 2,3 at distance 2, the two pairs at 3. -/
def zEx4 : List MergeRow :=
  [⟨0, 1, 1, 2⟩, ⟨2, 3, 2, 2⟩, ⟨4, 5, 3, 4⟩]

/-- A degenerate 3-leaf matrix for three identical points: every merge
distance, in particular the root distance L, is 0. -/
def zdeg3 : List MergeRow :=
  [⟨0, 1, 0, 2⟩, ⟨2, 3, 0, 3⟩]

/-- Child entry of a matrix row selected by a side flag: the right child when
the flag is true, the left child otherwise.  Used to count children entries. -/
def child_at (z : List MergeRow) (k : Fin z.length) (b : Bool) : Nat :=
  if b then (z.get k).right else (z.get k).left

/-- Children are created strictly before their parent row's node: the single
matrix property that makes the recursion of get_descendants terminate. -/
def ChildrenLT (z : List MergeRow) (n : Nat) : Prop :=
  ∀ k (h : k < z.length),
    (z.get ⟨k, h⟩).left < n + k ∧ (z.get ⟨k, h⟩).right < n + k

/-- Invariant carried through the candidate scan: every selected id comes
from a matrix row of size at most the bound, and the selection is pairwise
free of ancestor-descendant conflicts. -/
def GoodSel (z : List MergeRow) (n bound : Nat) (acc : List Nat) : Prop :=
  (∀ x ∈ acc, ∃ k, ∃ hk : k < z.length,
    x = k + n ∧ (z.get ⟨k, hk⟩).size ≤ bound) ∧
  acc.Pairwise fun a c => is_child a c z = false ∧ is_child c a z = false

/-- The six-point single-linkage matrix is well formed. -/
theorem wf_z6 : WF z6 6 := ⟨by norm_num, by decide, by decide, by decide, by decide⟩

/-- The two-pair matrix is well formed. -/
theorem wf_zEx4 : WF zEx4 4 := ⟨by norm_num, by decide, by decide, by decide, by decide⟩

/-- The degenerate all-zero-distance matrix is well formed. -/
theorem wf_zdeg3 : WF zdeg3 3 := ⟨by norm_num, by decide, by decide, by decide, by decide⟩


theorem wf_children_lt {z : List MergeRow} {n : Nat} (hwf : WF z n) :
    ChildrenLT z n :=
  hwf.children_lt

theorem wf_nleaves {z : List MergeRow} {n : Nat} (hwf : WF z n) :
    z.length + 1 = n := by
  have h1 := hwf.two_le
  have h2 := hwf.len
  omega

theorem wf_ne_nil {z : List MergeRow} {n : Nat} (hwf : WF z n) : z ≠ [] := by
  apply List.ne_nil_of_length_pos
  have h1 := hwf.two_le
  have h2 := hwf.len
  omega

theorem get_descendants_fuel_stable {z : List MergeRow} {n : Nat}
    (hch : ChildrenLT z n) :
    ∀ clustid fuel, clustid < fuel →
      get_descendants_fuel z n fuel clustid = get_descendants z n clustid := by
  intro clustid
  induction clustid using Nat.strong_induction_on with
  | _ clustid ih =>
    intro fuel hfuel
    match fuel, hfuel with
    | fuel + 1, _ =>
      show get_descendants_fuel z n (fuel + 1) clustid =
        get_descendants_fuel z n (clustid + 1) clustid
      by_cases hlt : clustid < n
      · simp [get_descendants_fuel, hlt]
      · simp only [get_descendants_fuel, if_neg hlt]
        cases hz : z.get? (clustid - n) with
        | none => rfl
        | some row =>
          obtain ⟨hk, hrow⟩ := List.get?_eq_some.mp hz
          have hn : n ≤ clustid := Nat.le_of_not_lt hlt
          have hl : row.left < clustid := by
            have := (hch (clustid - n) hk).1
            rw [hrow] at this
            omega
          have hr : row.right < clustid := by
            have := (hch (clustid - n) hk).2
            rw [hrow] at this
            omega
          dsimp only
          rw [ih row.left hl fuel (by omega), ih row.left hl clustid hl,
            ih row.right hr fuel (by omega), ih row.right hr clustid hr]

theorem get_descendants_leaf {z : List MergeRow} {n clustid : Nat}
    (h : clustid < n) : get_descendants z n clustid = ([clustid], []) := by
  simp [get_descendants, get_descendants_fuel, h]

theorem get_descendants_invalid {z : List MergeRow} {n clustid : Nat}
    (h1 : n ≤ clustid) (h2 : z.length ≤ clustid - n) :
    get_descendants z n clustid = ([], []) := by
  simp only [get_descendants, get_descendants_fuel, if_neg (Nat.not_lt.mpr h1)]
  rw [List.get?_eq_none.mpr h2]

theorem get_descendants_node {z : List MergeRow} {n : Nat}
    (hch : ChildrenLT z n) {clustid : Nat} (h1 : n ≤ clustid)
    (hk : clustid - n < z.length) :
    get_descendants z n clustid =
      ((get_descendants z n (z.get ⟨clustid - n, hk⟩).left).1 ++
        (get_descendants z n (z.get ⟨clustid - n, hk⟩).right).1,
       (get_descendants z n (z.get ⟨clustid - n, hk⟩).left).2 ++
        (get_descendants z n (z.get ⟨clustid - n, hk⟩).right).2 ++
        [(z.get ⟨clustid - n, hk⟩).left, (z.get ⟨clustid - n, hk⟩).right]) := by
  have hl : (z.get ⟨clustid - n, hk⟩).left < clustid := by
    have := (hch (clustid - n) hk).1
    omega
  have hr : (z.get ⟨clustid - n, hk⟩).right < clustid := by
    have := (hch (clustid - n) hk).2
    omega
  conv_lhs => rw [get_descendants]
  simp only [get_descendants_fuel, if_neg (Nat.not_lt.mpr h1),
    List.get?_eq_get hk]
  rw [get_descendants_fuel_stable hch _ clustid hl,
    get_descendants_fuel_stable hch _ clustid hr]

theorem is_child_iff {z : List MergeRow} {n : Nat} (hlen : z.length + 1 = n)
    (p c : Nat) :
    is_child p c z = true ↔
      (c ∈ (get_descendants z n p).1 ∨ c ∈ (get_descendants z n p).2) := by
  simp [is_child, hlen]

theorem is_child_false_iff {z : List MergeRow} {n : Nat}
    (hlen : z.length + 1 = n) (p c : Nat) :
    is_child p c z = false ↔
      (c ∉ (get_descendants z n p).1 ∧ c ∉ (get_descendants z n p).2) := by
  rw [← Bool.not_eq_true, is_child_iff hlen]
  tauto

theorem desc_le {z : List MergeRow} {n : Nat} (hch : ChildrenLT z n) :
    ∀ clustid x,
      (x ∈ (get_descendants z n clustid).1 ∨ x ∈ (get_descendants z n clustid).2) →
      x ≤ clustid ∧ (n ≤ clustid → x < clustid) := by
  intro clustid
  induction clustid using Nat.strong_induction_on with
  | _ clustid ih =>
    intro x hx
    by_cases hlt : clustid < n
    · rw [get_descendants_leaf hlt] at hx
      simp only [List.mem_singleton, List.not_mem_nil] at hx
      rcases hx with h | h
      · omega
      · exact absurd h (by simp)
    · have hn : n ≤ clustid := Nat.le_of_not_lt hlt
      by_cases hk : clustid - n < z.length
      · rw [get_descendants_node hch hn hk] at hx
        have hl : (z.get ⟨clustid - n, hk⟩).left < clustid := by
          have := (hch (clustid - n) hk).1
          omega
        have hr : (z.get ⟨clustid - n, hk⟩).right < clustid := by
          have := (hch (clustid - n) hk).2
          omega
        simp only [List.mem_append, List.mem_cons, List.mem_singleton,
          List.not_mem_nil, or_false] at hx
        rcases hx with (h | h) | ((h | h) | (h | h))
        · have := ih _ hl x (Or.inl h)
          omega
        · have := ih _ hr x (Or.inl h)
          omega
        · have := ih _ hl x (Or.inr h)
          omega
        · have := ih _ hr x (Or.inr h)
          omega
        · omega
        · omega
      · rw [get_descendants_invalid hn (by omega)] at hx
        simp at hx

theorem leaves_lt_n {z : List MergeRow} {n : Nat} (hch : ChildrenLT z n) :
    ∀ clustid x, x ∈ (get_descendants z n clustid).1 → x < n := by
  intro clustid
  induction clustid using Nat.strong_induction_on with
  | _ clustid ih =>
    intro x hx
    by_cases hlt : clustid < n
    · rw [get_descendants_leaf hlt] at hx
      simp only [List.mem_singleton] at hx
      omega
    · have hn : n ≤ clustid := Nat.le_of_not_lt hlt
      by_cases hk : clustid - n < z.length
      · rw [get_descendants_node hch hn hk] at hx
        have hl : (z.get ⟨clustid - n, hk⟩).left < clustid := by
          have := (hch (clustid - n) hk).1
          omega
        have hr : (z.get ⟨clustid - n, hk⟩).right < clustid := by
          have := (hch (clustid - n) hk).2
          omega
        rcases List.mem_append.mp hx with h | h
        · exact ih _ hl x h
        · exact ih _ hr x h
      · rw [get_descendants_invalid hn (by omega)] at hx
        simp at hx

theorem leaves_ne_nil {z : List MergeRow} {n : Nat} (hch : ChildrenLT z n) :
    ∀ clustid, (clustid < n ∨ clustid - n < z.length) →
      (get_descendants z n clustid).1 ≠ [] := by
  intro clustid
  induction clustid using Nat.strong_induction_on with
  | _ clustid ih =>
    intro hval
    by_cases hlt : clustid < n
    · rw [get_descendants_leaf hlt]
      simp
    · have hn : n ≤ clustid := Nat.le_of_not_lt hlt
      have hk : clustid - n < z.length := by
        rcases hval with h | h
        · omega
        · exact h
      rw [get_descendants_node hch hn hk]
      have hl : (z.get ⟨clustid - n, hk⟩).left < clustid := by
        have := (hch (clustid - n) hk).1
        omega
      have hlval : (z.get ⟨clustid - n, hk⟩).left < n ∨
          (z.get ⟨clustid - n, hk⟩).left - n < z.length := by
        have := (hch (clustid - n) hk).1
        omega
      have := ih _ hl hlval
      intro hcontra
      exact this (List.append_eq_nil.mp hcontra).1

theorem desc_sub {z : List MergeRow} {n : Nat} (hch : ChildrenLT z n) :
    ∀ a b, b ∈ (get_descendants z n a).2 →
      (get_descendants z n b).1 ⊆ (get_descendants z n a).1 ∧
      (get_descendants z n b).2 ⊆ (get_descendants z n a).2 := by
  intro a
  induction a using Nat.strong_induction_on with
  | _ a ih =>
    intro b hb
    by_cases hlt : a < n
    · rw [get_descendants_leaf hlt] at hb
      simp at hb
    · have hn : n ≤ a := Nat.le_of_not_lt hlt
      by_cases hk : a - n < z.length
      · rw [get_descendants_node hch hn hk] at hb ⊢
        have hl : (z.get ⟨a - n, hk⟩).left < a := by
          have := (hch (a - n) hk).1
          omega
        have hr : (z.get ⟨a - n, hk⟩).right < a := by
          have := (hch (a - n) hk).2
          omega
        simp only [List.mem_append, List.mem_cons, List.mem_singleton,
          List.not_mem_nil, or_false] at hb
        rcases hb with (h | h) | (h | h)
        · have hsub := ih _ hl b h
          constructor
          · exact hsub.1.trans (List.subset_append_left _ _)
          · exact hsub.2.trans
              ((List.subset_append_left _ _).trans (List.subset_append_left _ _))
        · have hsub := ih _ hr b h
          constructor
          · exact hsub.1.trans (List.subset_append_right _ _)
          · exact hsub.2.trans
              ((List.subset_append_right _ _).trans (List.subset_append_left _ _))
        · subst h
          constructor
          · exact List.subset_append_left _ _
          · exact (List.subset_append_left _ _).trans (List.subset_append_left _ _)
        · subst h
          constructor
          · exact List.subset_append_right _ _
          · exact (List.subset_append_right _ _).trans (List.subset_append_left _ _)
      · rw [get_descendants_invalid hn (by omega)] at hb
        simp at hb

theorem leaf_mem_links_mem_leaves {z : List MergeRow} {n : Nat}
    (hch : ChildrenLT z n) :
    ∀ a x, x < n → x ∈ (get_descendants z n a).2 → x ∈ (get_descendants z n a).1 := by
  intro a
  induction a using Nat.strong_induction_on with
  | _ a ih =>
    intro x hxn hx
    by_cases hlt : a < n
    · rw [get_descendants_leaf hlt] at hx
      simp at hx
    · have hn : n ≤ a := Nat.le_of_not_lt hlt
      by_cases hk : a - n < z.length
      · rw [get_descendants_node hch hn hk] at hx ⊢
        have hl : (z.get ⟨a - n, hk⟩).left < a := by
          have := (hch (a - n) hk).1
          omega
        have hr : (z.get ⟨a - n, hk⟩).right < a := by
          have := (hch (a - n) hk).2
          omega
        simp only [List.mem_append, List.mem_cons, List.mem_singleton,
          List.not_mem_nil, or_false] at hx
        rcases hx with (h | h) | (h | h)
        · exact List.mem_append.mpr (Or.inl (ih _ hl x hxn h))
        · exact List.mem_append.mpr (Or.inr (ih _ hr x hxn h))
        · subst h
          refine List.mem_append.mpr (Or.inl ?_)
          rw [get_descendants_leaf hxn]
          simp
        · subst h
          refine List.mem_append.mpr (Or.inr ?_)
          rw [get_descendants_leaf hxn]
          simp
      · rw [get_descendants_invalid hn (by omega)] at hx
        simp at hx

theorem mem_child_row {z : List MergeRow} {n : Nat} (hch : ChildrenLT z n) :
    ∀ a, n ≤ a → ∀ x,
      (x ∈ (get_descendants z n a).1 ∨ x ∈ (get_descendants z n a).2) →
      ∃ k, ∃ hk : k < z.length,
        (x = (z.get ⟨k, hk⟩).left ∨ x = (z.get ⟨k, hk⟩).right) ∧
        (n + k = a ∨ n + k ∈ (get_descendants z n a).2) := by
  intro a
  induction a using Nat.strong_induction_on with
  | _ a ih =>
    intro hn x hx
    by_cases hk : a - n < z.length
    · rw [get_descendants_node hch hn hk] at hx
      have hl : (z.get ⟨a - n, hk⟩).left < a := by
        have := (hch (a - n) hk).1
        omega
      have hr : (z.get ⟨a - n, hk⟩).right < a := by
        have := (hch (a - n) hk).2
        omega
      have hmem_l : (z.get ⟨a - n, hk⟩).left ∈ (get_descendants z n a).2 := by
        rw [get_descendants_node hch hn hk]
        simp
      have hmem_r : (z.get ⟨a - n, hk⟩).right ∈ (get_descendants z n a).2 := by
        rw [get_descendants_node hch hn hk]
        simp
      have hsub_l : (get_descendants z n (z.get ⟨a - n, hk⟩).left).2 ⊆
          (get_descendants z n a).2 := (desc_sub hch a _ hmem_l).2
      have hsub_r : (get_descendants z n (z.get ⟨a - n, hk⟩).right).2 ⊆
          (get_descendants z n a).2 := (desc_sub hch a _ hmem_r).2
      simp only [List.mem_append, List.mem_cons, List.mem_singleton,
        List.not_mem_nil, or_false] at hx
      have hdirect : x = (z.get ⟨a - n, hk⟩).left ∨ x = (z.get ⟨a - n, hk⟩).right →
          ∃ k, ∃ hk : k < z.length,
            (x = (z.get ⟨k, hk⟩).left ∨ x = (z.get ⟨k, hk⟩).right) ∧
            (n + k = a ∨ n + k ∈ (get_descendants z n a).2) := by
        intro hside
        exact ⟨a - n, hk, hside, Or.inl (by omega)⟩
      have hstep : ∀ b, b = (z.get ⟨a - n, hk⟩).left ∨ b = (z.get ⟨a - n, hk⟩).right →
          b < a →
          (x ∈ (get_descendants z n b).1 ∨ x ∈ (get_descendants z n b).2) →
          ∃ k, ∃ hk : k < z.length,
            (x = (z.get ⟨k, hk⟩).left ∨ x = (z.get ⟨k, hk⟩).right) ∧
            (n + k = a ∨ n + k ∈ (get_descendants z n a).2) := by
        intro b hbside hba hbx
        by_cases hbn : b < n
        · rw [get_descendants_leaf hbn] at hbx
          have : x = b := by
            rcases hbx with h | h
            · simpa using h
            · simp at h
          exact hdirect (by rw [this]; exact hbside)
        · have hbge : n ≤ b := Nat.le_of_not_lt hbn
          obtain ⟨k2, hk2, hside2, hup2⟩ := ih b hba hbge x hbx
          refine ⟨k2, hk2, hside2, Or.inr ?_⟩
          have hbmem : b ∈ (get_descendants z n a).2 := by
            rcases hbside with h | h
            · rw [h]; exact hmem_l
            · rw [h]; exact hmem_r
          rcases hup2 with h | h
          · rw [h]
            exact hbmem
          · exact (desc_sub hch a b hbmem).2 h
      rcases hx with (h | h) | ((h | h) | (h | h))
      · exact hstep _ (Or.inl rfl) hl (Or.inl h)
      · exact hstep _ (Or.inr rfl) hr (Or.inl h)
      · exact hstep _ (Or.inl rfl) hl (Or.inr h)
      · exact hstep _ (Or.inr rfl) hr (Or.inr h)
      · exact hdirect (Or.inl h)
      · exact hdirect (Or.inr h)
    · rw [get_descendants_invalid hn (by omega)] at hx
      simp at hx

theorem sibling_disjoint {z : List MergeRow} {n : Nat} (hch : ChildrenLT z n)
    (huniq : ∀ j (hj : j < z.length) k (hk : k < z.length),
      ((z.get ⟨j, hj⟩).left = (z.get ⟨k, hk⟩).left → j = k) ∧
      ((z.get ⟨j, hj⟩).right = (z.get ⟨k, hk⟩).right → j = k) ∧
      (z.get ⟨j, hj⟩).left ≠ (z.get ⟨k, hk⟩).right) :
    ∀ k (hk : k < z.length) (x : Nat),
      (x = (z.get ⟨k, hk⟩).left ∨
        x ∈ (get_descendants z n (z.get ⟨k, hk⟩).left).1 ∨
        x ∈ (get_descendants z n (z.get ⟨k, hk⟩).left).2) →
      (x = (z.get ⟨k, hk⟩).right ∨
        x ∈ (get_descendants z n (z.get ⟨k, hk⟩).right).1 ∨
        x ∈ (get_descendants z n (z.get ⟨k, hk⟩).right).2) → False := by
  intro k hk
  have hnorm : ∀ c x, (x = c ∨ x ∈ (get_descendants z n c).1 ∨
      x ∈ (get_descendants z n c).2) →
      x = c ∨ (n ≤ c ∧ (x ∈ (get_descendants z n c).1 ∨
        x ∈ (get_descendants z n c).2)) := by
    intro c x hc
    by_cases hcn : c < n
    · rcases hc with h | h | h
      · exact Or.inl h
      · rw [get_descendants_leaf hcn] at h
        simp only [List.mem_singleton] at h
        exact Or.inl h
      · rw [get_descendants_leaf hcn] at h
        simp at h
    · rcases hc with h | h | h
      · exact Or.inl h
      · exact Or.inr ⟨Nat.le_of_not_lt hcn, Or.inl h⟩
      · exact Or.inr ⟨Nat.le_of_not_lt hcn, Or.inr h⟩
  suffices haux : ∀ d x, n + k - x ≤ d →
      (x = (z.get ⟨k, hk⟩).left ∨
        x ∈ (get_descendants z n (z.get ⟨k, hk⟩).left).1 ∨
        x ∈ (get_descendants z n (z.get ⟨k, hk⟩).left).2) →
      (x = (z.get ⟨k, hk⟩).right ∨
        x ∈ (get_descendants z n (z.get ⟨k, hk⟩).right).1 ∨
        x ∈ (get_descendants z n (z.get ⟨k, hk⟩).right).2) → False by
    intro x hxl hxr
    exact haux (n + k) x (by omega) hxl hxr
  intro d
  induction d with
  | zero =>
    intro x hd hxl hxr
    have hlk : (z.get ⟨k, hk⟩).left < n + k := (hch k hk).1
    have hx : x < n + k := by
      rcases hnorm _ x hxl with h | ⟨hc, h⟩
      · omega
      · have := desc_le hch _ x h
        omega
    omega
  | succ d ihd =>
    intro x hd hxl hxr
    have hlk : (z.get ⟨k, hk⟩).left < n + k := (hch k hk).1
    have hrk : (z.get ⟨k, hk⟩).right < n + k := (hch k hk).2
    rcases hnorm _ x hxl with hx1 | ⟨hln, hx1⟩ <;>
      rcases hnorm _ x hxr with hx2 | ⟨hrn, hx2⟩
    · exact (huniq k hk k hk).2.2 (hx1 ▸ hx2 ▸ rfl)
    · -- x is the left child of row k and a strict descendant of the right child
      obtain ⟨j, hj, hside, hup⟩ := mem_child_row hch _ hrn x hx2
      rcases hside with hs | hs
      · have hjk : j = k := (huniq j hj k hk).1 (by rw [← hs, ← hx1])
        subst hjk
        rcases hup with h | h
        · omega
        · have := desc_le hch _ _ (Or.inr h)
          omega
      · exact (huniq k hk j hj).2.2 (by rw [← hx1, hs])
    · -- x is the right child of row k and a strict descendant of the left child
      obtain ⟨j, hj, hside, hup⟩ := mem_child_row hch _ hln x hx1
      rcases hside with hs | hs
      · exact (huniq j hj k hk).2.2 (by rw [← hs, ← hx2])
      · have hjk : j = k := (huniq j hj k hk).2.1 (by rw [← hs, ← hx2])
        subst hjk
        rcases hup with h | h
        · omega
        · have := desc_le hch _ _ (Or.inr h)
          omega
    · -- x is a strict descendant of both children: push the common node up
      obtain ⟨j1, hj1, hside1, hup1⟩ := mem_child_row hch _ hln x hx1
      obtain ⟨j2, hj2, hside2, hup2⟩ := mem_child_row hch _ hrn x hx2
      have hxj1 : x < n + j1 := by
        rcases hside1 with hs | hs
        · have := (hch j1 hj1).1
          omega
        · have := (hch j1 hj1).2
          omega
      have hj12 : j1 = j2 := by
        rcases hside1 with hs1 | hs1 <;> rcases hside2 with hs2 | hs2
        · exact (huniq j1 hj1 j2 hj2).1 (by rw [← hs1, hs2])
        · exact absurd (by rw [← hs1, hs2] :
            (z.get ⟨j1, hj1⟩).left = (z.get ⟨j2, hj2⟩).right)
            (huniq j1 hj1 j2 hj2).2.2
        · exact absurd (by rw [← hs2, hs1] :
            (z.get ⟨j2, hj2⟩).left = (z.get ⟨j1, hj1⟩).right)
            (huniq j2 hj2 j1 hj1).2.2
        · exact (huniq j1 hj1 j2 hj2).2.1 (by rw [← hs1, hs2])
      subst hj12
      have hy1 : n + j1 = (z.get ⟨k, hk⟩).left ∨
          n + j1 ∈ (get_descendants z n (z.get ⟨k, hk⟩).left).1 ∨
          n + j1 ∈ (get_descendants z n (z.get ⟨k, hk⟩).left).2 := by
        rcases hup1 with h | h
        · exact Or.inl h
        · exact Or.inr (Or.inr h)
      have hy2 : n + j1 = (z.get ⟨k, hk⟩).right ∨
          n + j1 ∈ (get_descendants z n (z.get ⟨k, hk⟩).right).1 ∨
          n + j1 ∈ (get_descendants z n (z.get ⟨k, hk⟩).right).2 := by
        rcases hup2 with h | h
        · exact Or.inl h
        · exact Or.inr (Or.inr h)
      have hy_lt : n + j1 ≤ (z.get ⟨k, hk⟩).left := by
        rcases hup1 with h | h
        · omega
        · have := desc_le hch _ _ (Or.inr h)
          omega
      exact ihd (n + j1) (by omega) hy1 hy2

theorem desc_nodup {z : List MergeRow} {n : Nat} (hch : ChildrenLT z n)
    (huniq : ∀ j (hj : j < z.length) k (hk : k < z.length),
      ((z.get ⟨j, hj⟩).left = (z.get ⟨k, hk⟩).left → j = k) ∧
      ((z.get ⟨j, hj⟩).right = (z.get ⟨k, hk⟩).right → j = k) ∧
      (z.get ⟨j, hj⟩).left ≠ (z.get ⟨k, hk⟩).right) :
    ∀ a, (get_descendants z n a).1.Nodup ∧ (get_descendants z n a).2.Nodup := by
  intro a
  induction a using Nat.strong_induction_on with
  | _ a ih =>
    by_cases hlt : a < n
    · rw [get_descendants_leaf hlt]
      simp
    · have hn : n ≤ a := Nat.le_of_not_lt hlt
      by_cases hk : a - n < z.length
      · rw [get_descendants_node hch hn hk]
        have hl : (z.get ⟨a - n, hk⟩).left < a := by
          have := (hch (a - n) hk).1
          omega
        have hr : (z.get ⟨a - n, hk⟩).right < a := by
          have := (hch (a - n) hk).2
          omega
        have ihl := ih _ hl
        have ihr := ih _ hr
        have hsib := sibling_disjoint hch huniq (a - n) hk
        have hne : (z.get ⟨a - n, hk⟩).left ≠ (z.get ⟨a - n, hk⟩).right :=
          (huniq (a - n) hk (a - n) hk).2.2
        have hnotself : ∀ c, c ∈ (get_descendants z n c).2 → False := by
          intro c hc
          by_cases hcn : c < n
          · rw [get_descendants_leaf hcn] at hc
            simp at hc
          · have := desc_le hch c c (Or.inr hc)
            omega
        constructor
        · refine List.nodup_append.mpr ⟨ihl.1, ihr.1, ?_⟩
          intro x hx1 hx2
          exact hsib x (Or.inr (Or.inl hx1)) (Or.inr (Or.inl hx2))
        · refine List.nodup_append.mpr ⟨?_, ?_, ?_⟩
          · refine List.nodup_append.mpr ⟨ihl.2, ihr.2, ?_⟩
            intro x hx1 hx2
            exact hsib x (Or.inr (Or.inr hx1)) (Or.inr (Or.inr hx2))
          · exact List.nodup_cons.mpr ⟨by simpa using hne, List.nodup_singleton _⟩
          · intro x hx1 hx2
            simp only [List.mem_cons, List.mem_singleton, List.not_mem_nil,
              or_false] at hx2
            rcases List.mem_append.mp hx1 with h1 | h1 <;> rcases hx2 with h2 | h2
            · exact hnotself _ (h2 ▸ h1)
            · exact hsib x (Or.inr (Or.inr h1)) (Or.inl h2)
            · exact hsib x (Or.inl h2) (Or.inr (Or.inr h1))
            · exact hnotself _ (h2 ▸ h1)
      · rw [get_descendants_invalid hn (by omega)]
        simp

theorem parent_exists {z : List MergeRow} {n : Nat} (hwf : WF z n) :
    ∀ x, x < 2 * n - 2 →
      ∃ k, ∃ hk : k < z.length,
        x = (z.get ⟨k, hk⟩).left ∨ x = (z.get ⟨k, hk⟩).right := by
  have hlen := hwf.len
  have h2 := hwf.two_le
  have hfalse : ∀ k : Fin z.length, child_at z k false = (z.get k).left :=
    fun k => rfl
  have htrue : ∀ k : Fin z.length, child_at z k true = (z.get k).right :=
    fun k => rfl
  have hbound : ∀ (p : Fin z.length × Bool), child_at z p.1 p.2 < 2 * n - 2 := by
    rintro ⟨⟨k, hk⟩, b⟩
    have := hwf.children_lt k hk
    dsimp only
    cases b
    · rw [hfalse]
      omega
    · rw [htrue]
      omega
  have hinj : Function.Injective
      (fun p : Fin z.length × Bool => (⟨child_at z p.1 p.2, hbound p⟩ : Fin (2 * n - 2))) := by
    rintro ⟨⟨j, hj⟩, bj⟩ ⟨⟨k, hk⟩, bk⟩ hjk
    have hval : child_at z ⟨j, hj⟩ bj = child_at z ⟨k, hk⟩ bk :=
      congrArg Fin.val hjk
    have huniq := hwf.children_uniq
    cases bj <;> cases bk
    · rw [hfalse, hfalse] at hval
      have : j = k := (huniq j hj k hk).1 hval
      subst this
      rfl
    · rw [hfalse, htrue] at hval
      exact absurd hval (huniq j hj k hk).2.2
    · rw [htrue, hfalse] at hval
      exact absurd hval.symm (huniq k hk j hj).2.2
    · rw [htrue, htrue] at hval
      have : j = k := (huniq j hj k hk).2.1 hval
      subst this
      rfl
  have hcard : Fintype.card (Fin z.length × Bool) = Fintype.card (Fin (2 * n - 2)) := by
    simp only [Fintype.card_prod, Fintype.card_fin, Fintype.card_bool]
    omega
  have hsurj : Function.Surjective
      (fun p : Fin z.length × Bool => (⟨child_at z p.1 p.2, hbound p⟩ : Fin (2 * n - 2))) :=
    ((Fintype.bijective_iff_injective_and_card _).mpr ⟨hinj, hcard⟩).2
  intro x hx
  obtain ⟨⟨⟨k, hk⟩, b⟩, hFx⟩ := hsurj ⟨x, hx⟩
  have hval : child_at z ⟨k, hk⟩ b = x := congrArg Fin.val hFx
  cases b
  · rw [hfalse] at hval
    exact ⟨k, hk, Or.inl hval.symm⟩
  · rw [htrue] at hval
    exact ⟨k, hk, Or.inr hval.symm⟩

theorem mem_links_root {z : List MergeRow} {n : Nat} (hwf : WF z n) :
    ∀ x, x < 2 * n - 2 → x ∈ (get_descendants z n (2 * n - 2)).2 := by
  have hch := hwf.children_lt
  have hlen := hwf.len
  have h2 := hwf.two_le
  have hrootn : n ≤ 2 * n - 2 := by omega
  have hrootk : 2 * n - 2 - n < z.length := by omega
  have hchild_mem : ∀ a k (hk : k < z.length), n ≤ a → a - n = k → ∀ x,
      (x = (z.get ⟨k, hk⟩).left ∨ x = (z.get ⟨k, hk⟩).right) →
      x ∈ (get_descendants z n a).2 := by
    intro a k hk ha hak x hside
    have hk2 : a - n < z.length := by omega
    rw [get_descendants_node hch ha hk2]
    have heq : (⟨a - n, hk2⟩ : Fin z.length) = ⟨k, hk⟩ := Fin.ext hak
    rw [heq]
    rcases hside with h | h <;> subst h <;> simp
  suffices haux : ∀ d x, 2 * n - 2 - x ≤ d → x < 2 * n - 2 →
      x ∈ (get_descendants z n (2 * n - 2)).2 by
    intro x hx
    exact haux (2 * n - 2) x (by omega) hx
  intro d
  induction d with
  | zero =>
    intro x h1 h2x
    omega
  | succ d ihd =>
    intro x h1 h2x
    obtain ⟨k, hk, hside⟩ := parent_exists hwf x h2x
    have hchild_lt : x < n + k := by
      have := hch k hk
      rcases hside with h | h <;> omega
    by_cases hroot : n + k = 2 * n - 2
    · exact hchild_mem (2 * n - 2) k hk hrootn (by omega) x hside
    · have hlt2 : n + k < 2 * n - 2 := by omega
      have hup : n + k ∈ (get_descendants z n (2 * n - 2)).2 :=
        ihd (n + k) (by omega) hlt2
      have hxin : x ∈ (get_descendants z n (n + k)).2 :=
        hchild_mem (n + k) k hk (by omega) (by omega) x hside
      exact (desc_sub hch _ _ hup).2 hxin

theorem mem_leaves_root {z : List MergeRow} {n : Nat} (hwf : WF z n) :
    ∀ x, x < n → x ∈ (get_descendants z n (2 * n - 2)).1 := by
  intro x hx
  have h2 := hwf.two_le
  exact leaf_mem_links_mem_leaves hwf.children_lt _ x hx
    (mem_links_root hwf x (by omega))

theorem leaves_root_iff {z : List MergeRow} {n : Nat} (hwf : WF z n) (x : Nat) :
    x ∈ (get_descendants z n (2 * n - 2)).1 ↔ x < n :=
  ⟨leaves_lt_n hwf.children_lt _ x, mem_leaves_root hwf x⟩

theorem links_root_iff {z : List MergeRow} {n : Nat} (hwf : WF z n) (x : Nat) :
    x ∈ (get_descendants z n (2 * n - 2)).2 ↔ x < 2 * n - 2 := by
  constructor
  · intro h
    have h2 := hwf.two_le
    have := desc_le hwf.children_lt _ x (Or.inr h)
    omega
  · exact mem_links_root hwf x

theorem leaves_root_length {z : List MergeRow} {n : Nat} (hwf : WF z n) :
    (get_descendants z n (2 * n - 2)).1.length = n := by
  have hnodup := (desc_nodup hwf.children_lt hwf.children_uniq (2 * n - 2)).1
  have hset : (get_descendants z n (2 * n - 2)).1.toFinset = Finset.range n := by
    ext x
    simp [List.mem_toFinset, Finset.mem_range, leaves_root_iff hwf]
  rw [← List.toFinset_card_of_nodup hnodup, hset, Finset.card_range]

theorem links_root_internal_length {z : List MergeRow} {n : Nat} (hwf : WF z n) :
    ((get_descendants z n (2 * n - 2)).2.filter fun x => decide (n ≤ x)).length =
      n - 2 := by
  have hnodup := ((desc_nodup hwf.children_lt hwf.children_uniq (2 * n - 2)).2).filter
    (fun x => decide (n ≤ x))
  have hset : ((get_descendants z n (2 * n - 2)).2.filter
      fun x => decide (n ≤ x)).toFinset = Finset.Ico n (2 * n - 2) := by
    ext x
    simp [List.mem_toFinset, List.mem_filter, Finset.mem_Ico,
      links_root_iff hwf, and_comm]
  rw [← List.toFinset_card_of_nodup hnodup, hset, Nat.card_Ico]
  have h2 := hwf.two_le
  omega

theorem root_row_size {z : List MergeRow} {n : Nat} (hwf : WF z n)
    (hk : n - 2 < z.length) : (z.get ⟨n - 2, hk⟩).size = n := by
  have h2 := hwf.two_le
  rw [hwf.sizes (n - 2) hk]
  have heq : n + (n - 2) = 2 * n - 2 := by omega
  rw [heq, leaves_root_length hwf]

theorem desc_size_lt {z : List MergeRow} {n : Nat} (hch : ChildrenLT z n) :
    ∀ a, n ≤ a → a - n < z.length → ∀ x,
      (x ∈ (get_descendants z n a).1 ∨ x ∈ (get_descendants z n a).2) →
      (get_descendants z n x).1.length < (get_descendants z n a).1.length := by
  intro a
  induction a using Nat.strong_induction_on with
  | _ a ih =>
    intro hn hk x hx
    rw [get_descendants_node hch hn hk] at hx ⊢
    have hl : (z.get ⟨a - n, hk⟩).left < a := by
      have := (hch (a - n) hk).1
      omega
    have hr : (z.get ⟨a - n, hk⟩).right < a := by
      have := (hch (a - n) hk).2
      omega
    have hlval : (z.get ⟨a - n, hk⟩).left < n ∨
        (z.get ⟨a - n, hk⟩).left - n < z.length := by
      have := (hch (a - n) hk).1
      omega
    have hrval : (z.get ⟨a - n, hk⟩).right < n ∨
        (z.get ⟨a - n, hk⟩).right - n < z.length := by
      have := (hch (a - n) hk).2
      omega
    have hlpos : 0 < (get_descendants z n (z.get ⟨a - n, hk⟩).left).1.length :=
      List.length_pos.mpr (leaves_ne_nil hch _ hlval)
    have hrpos : 0 < (get_descendants z n (z.get ⟨a - n, hk⟩).right).1.length :=
      List.length_pos.mpr (leaves_ne_nil hch _ hrval)
    simp only [List.length_append]
    have hchildcase : ∀ b, b = (z.get ⟨a - n, hk⟩).left ∨ b = (z.get ⟨a - n, hk⟩).right →
        b < a →
        (x ∈ (get_descendants z n b).1 ∨ x ∈ (get_descendants z n b).2) →
        (get_descendants z n x).1.length <
          (get_descendants z n (z.get ⟨a - n, hk⟩).left).1.length +
          (get_descendants z n (z.get ⟨a - n, hk⟩).right).1.length := by
      intro b hbside hba hbx
      by_cases hbn : b < n
      · rw [get_descendants_leaf hbn] at hbx
        have hxb : x = b := by
          rcases hbx with h | h
          · simpa using h
          · simp at h
        subst hxb
        rw [get_descendants_leaf hbn]
        rcases hbside with h | h <;> rw [← h] at *
        · rw [get_descendants_leaf hbn]
          simp only [List.length_singleton]
          omega
        · rw [get_descendants_leaf hbn]
          simp only [List.length_singleton]
          omega
      · have hbge : n ≤ b := Nat.le_of_not_lt hbn
        have hbk : b - n < z.length := by
          rcases hbside with h | h
          · rcases hlval with h2 | h2
            · omega
            · rw [h]
              exact h2
          · rcases hrval with h2 | h2
            · omega
            · rw [h]
              exact h2
        have := ih b hba hbge hbk x hbx
        rcases hbside with h | h <;> rw [h] at this <;> omega
    simp only [List.mem_append, List.mem_cons, List.mem_singleton,
      List.not_mem_nil, or_false] at hx
    rcases hx with (h | h) | ((h | h) | (h | h))
    · exact hchildcase _ (Or.inl rfl) hl (Or.inl h)
    · exact hchildcase _ (Or.inr rfl) hr (Or.inl h)
    · exact hchildcase _ (Or.inl rfl) hl (Or.inr h)
    · exact hchildcase _ (Or.inr rfl) hr (Or.inr h)
    · subst h
      omega
    · subst h
      omega

theorem joininds_mem {z : List MergeRow} {c k : Nat} :
    k ∈ joininds z c ↔ ∃ hk : k < z.length, (z.get ⟨k, hk⟩).size = c := by
  simp only [joininds, List.mem_filter, List.mem_range]
  constructor
  · rintro ⟨hk, hp⟩
    refine ⟨hk, ?_⟩
    rw [List.get?_eq_get hk] at hp
    simpa using hp
  · rintro ⟨hk, hs⟩
    refine ⟨hk, ?_⟩
    rw [List.get?_eq_get hk]
    simpa using hs

theorem scan_size_mem {z : List MergeRow} {n : Nat} :
    ∀ (js : List Nat) (acc : List Nat) (x : Nat),
      x ∈ js.foldl (fun acc joinidx =>
        if acc.all fun other => ! is_child (joinidx + n) other z then
          acc ++ [joinidx + n] else acc) acc →
      x ∈ acc ∨ ∃ j ∈ js, x = j + n := by
  intro js
  induction js with
  | nil =>
    intro acc x hx
    exact Or.inl hx
  | cons j js ihjs =>
    intro acc x hx
    simp only [List.foldl_cons] at hx
    rcases ihjs _ x hx with h | ⟨j2, hj2, hx2⟩
    · by_cases hcheck : acc.all fun other => ! is_child (j + n) other z
      · rw [if_pos hcheck] at h
        rcases List.mem_append.mp h with h2 | h2
        · exact Or.inl h2
        · refine Or.inr ⟨j, List.mem_cons_self j js, ?_⟩
          simpa using h2
      · rw [if_neg hcheck] at h
        exact Or.inl h
    · exact Or.inr ⟨j2, List.mem_cons_of_mem j hj2, hx2⟩

theorem scan_size_mem_of {z : List MergeRow} {n c : Nat} {acc : List Nat}
    {x : Nat} (hx : x ∈ scan_size z n c acc) :
    x ∈ acc ∨ ∃ k, ∃ hk : k < z.length, x = k + n ∧ (z.get ⟨k, hk⟩).size = c := by
  rcases scan_size_mem (joininds z c) acc x hx with h | ⟨j, hj, hxj⟩
  · exact Or.inl h
  · obtain ⟨hk, hs⟩ := joininds_mem.mp hj
    exact Or.inr ⟨j, hk, hxj, hs⟩

theorem select_go_mem {z : List MergeRow} {n mnc : Nat} :
    ∀ (counts acc : List Nat) (x : Nat),
      x ∈ select_clustids_go z n mnc counts acc →
      x ∈ acc ∨ ∃ c ∈ counts, ∃ k, ∃ hk : k < z.length,
        x = k + n ∧ (z.get ⟨k, hk⟩).size = c := by
  intro counts
  induction counts with
  | nil =>
    intro acc x hx
    exact Or.inl hx
  | cons c cs ihc =>
    intro acc x hx
    rw [select_clustids_go] at hx
    by_cases hstop : mnc ≤ acc.length
    · rw [if_pos hstop] at hx
      exact Or.inl hx
    · rw [if_neg hstop] at hx
      rcases ihc _ x hx with h | ⟨c2, hc2, k, hk, hxk, hs⟩
      · rcases scan_size_mem_of h with h2 | ⟨k, hk, hxk, hs⟩
        · exact Or.inl h2
        · exact Or.inr ⟨c, List.mem_cons_self c cs, k, hk, hxk, hs⟩
      · exact Or.inr ⟨c2, List.mem_cons_of_mem c hc2, k, hk, hxk, hs⟩

theorem select_mem {z : List MergeRow} {n mcs mnc x : Nat}
    (hx : x ∈ select_clustids z n mcs mnc) :
    ∃ k, ∃ hk : k < z.length,
      x = k + n ∧ mcs ≤ (z.get ⟨k, hk⟩).size ∧ (z.get ⟨k, hk⟩).size < n := by
  rcases select_go_mem _ _ x hx with h | ⟨c, hc, k, hk, hxk, hs⟩
  · simp at h
  · rw [List.mem_range'_1] at hc
    exact ⟨k, hk, hxk, by omega, by omega⟩

theorem select_mem_range {z : List MergeRow} {n mcs mnc x : Nat}
    (hwf : WF z n) (hx : x ∈ select_clustids z n mcs mnc) :
    n ≤ x ∧ x ≤ 2 * n - 3 := by
  obtain ⟨k, hk, hxk, hge, hlt⟩ := select_mem hx
  have hlen := hwf.len
  have h2 := hwf.two_le
  by_cases hkroot : k = n - 2
  · exfalso
    subst hkroot
    rw [root_row_size hwf hk] at hlt
    omega
  · omega

theorem goodsel_mono {z : List MergeRow} {n b b2 : Nat} {acc : List Nat}
    (hb : b ≤ b2) (h : GoodSel z n b acc) : GoodSel z n b2 acc := by
  refine ⟨fun x hx => ?_, h.2⟩
  obtain ⟨k, hk, hxk, hs⟩ := h.1 x hx
  exact ⟨k, hk, hxk, by omega⟩

theorem scan_fold_good {z : List MergeRow} {n : Nat} (hwf : WF z n) (c : Nat) :
    ∀ (js acc : List Nat),
      (∀ j ∈ js, ∃ hj : j < z.length, (z.get ⟨j, hj⟩).size = c) →
      GoodSel z n c acc →
      GoodSel z n c (js.foldl (fun acc joinidx =>
        if acc.all fun other => ! is_child (joinidx + n) other z then
          acc ++ [joinidx + n] else acc) acc) := by
  intro js
  induction js with
  | nil =>
    intro acc hjs hacc
    exact hacc
  | cons j js ihjs =>
    intro acc hjs hacc
    simp only [List.foldl_cons]
    obtain ⟨hj, hsize⟩ := hjs j (List.mem_cons_self j js)
    refine ihjs _ (fun j2 hj2 => hjs j2 (List.mem_cons_of_mem j hj2)) ?_
    by_cases hcheck : acc.all fun other => ! is_child (j + n) other z
    · rw [if_pos hcheck]
      constructor
      · intro x hx
        rcases List.mem_append.mp hx with h | h
        · exact hacc.1 x h
        · refine ⟨j, hj, by simpa using h, by omega⟩
      · refine List.pairwise_append.mpr ⟨hacc.2, List.pairwise_singleton _ _, ?_⟩
        intro a ha b hb
        have hbeq : b = j + n := by simpa using hb
        subst hbeq
        have hfwd : is_child (j + n) a z = false := by
          have := List.all_eq_true.mp hcheck a ha
          simpa using this
        refine ⟨?_, hfwd⟩
        by_contra hrev
        rw [Bool.not_eq_false] at hrev
        obtain ⟨ka, hka, haeq, hasize⟩ := hacc.1 a ha
        have hmem := (is_child_iff (wf_nleaves hwf) a (j + n)).mp hrev
        have hlt := desc_size_lt hwf.children_lt a (by omega)
          (by omega : a - n < z.length) (j + n) hmem
        have hs1 := hwf.sizes ka (by omega)
        have hs2 := hwf.sizes j hj
        have hka_eq : (⟨ka, by omega⟩ : Fin z.length) = ⟨ka, hka⟩ := rfl
        have hna : n + ka = a := by omega
        have hnj : n + j = j + n := by omega
        rw [hna] at hs1
        rw [hnj] at hs2
        have hak : a - n = ka := by omega
        have : (get_descendants z n a).1.length ≤ c := by
          rw [← hs1]
          have : (⟨a - n, by omega⟩ : Fin z.length) = ⟨ka, hka⟩ := Fin.ext hak
          exact hasize
        omega
    · rw [if_neg hcheck]
      exact hacc

theorem scan_size_good {z : List MergeRow} {n : Nat} (hwf : WF z n) (c : Nat)
    (acc : List Nat) (hacc : GoodSel z n c acc) :
    GoodSel z n c (scan_size z n c acc) := by
  refine scan_fold_good hwf c (joininds z c) acc ?_ hacc
  intro j hj
  obtain ⟨hjlt, hjs⟩ := joininds_mem.mp hj
  exact ⟨hjlt, hjs⟩

theorem select_go_good {z : List MergeRow} {n mnc : Nat} (hwf : WF z n) :
    ∀ (counts acc : List Nat) (b : Nat),
      (∀ c ∈ counts, b ≤ c) → counts.Pairwise (· ≤ ·) → GoodSel z n b acc →
      ∃ b2, GoodSel z n b2 (select_clustids_go z n mnc counts acc) := by
  intro counts
  induction counts with
  | nil =>
    intro acc b hb hpw hacc
    exact ⟨b, hacc⟩
  | cons c cs ihc =>
    intro acc b hb hpw hacc
    rw [select_clustids_go]
    by_cases hstop : mnc ≤ acc.length
    · rw [if_pos hstop]
      exact ⟨b, hacc⟩
    · rw [if_neg hstop]
      have hbc : b ≤ c := hb c (List.mem_cons_self c cs)
      have hgood : GoodSel z n c (scan_size z n c acc) :=
        scan_size_good hwf c acc (goodsel_mono hbc hacc)
      have hcs := List.pairwise_cons.mp hpw
      exact ihc _ c hcs.1 hcs.2 hgood

theorem select_pairwise {z : List MergeRow} {n mcs mnc : Nat} (hwf : WF z n) :
    (select_clustids z n mcs mnc).Pairwise
      fun a c => is_child a c z = false ∧ is_child c a z = false := by
  have h1 : ∀ c ∈ List.range' mcs (n - mcs), mcs ≤ c := fun c hc =>
    (List.mem_range'_1.mp hc).1
  have h2 : (List.range' mcs (n - mcs)).Pairwise (· ≤ ·) :=
    (List.pairwise_lt_range' mcs (n - mcs)).imp Nat.le_of_lt
  have h3 : GoodSel z n mcs [] := ⟨by simp, by simp⟩
  obtain ⟨b2, hgood⟩ := select_go_good hwf _ [] mcs h1 h2 h3
  exact hgood.2

theorem le_foldl_max (l : List Nat) :
    ∀ a, a ≤ l.foldl max a ∧ ∀ x ∈ l, x ≤ l.foldl max a := by
  induction l with
  | nil =>
    intro a
    simp
  | cons y l ihl =>
    intro a
    simp only [List.foldl_cons]
    obtain ⟨h1, h2⟩ := ihl (max a y)
    refine ⟨le_trans (le_max_left a y) h1, ?_⟩
    intro x hx
    rcases List.mem_cons.mp hx with h | h
    · subst h
      exact le_trans (le_max_right a x) h1
    · exact h2 x h

theorem foldl_max_le (l : List Nat) :
    ∀ a b, a ≤ b → (∀ x ∈ l, x ≤ b) → l.foldl max a ≤ b := by
  induction l with
  | nil =>
    intro a b hab hl
    simpa using hab
  | cons y l ihl =>
    intro a b hab hl
    simp only [List.foldl_cons]
    refine ihl _ b ?_ fun x hx => hl x (List.mem_cons_of_mem y hx)
    have := hl y (List.mem_cons_self y l)
    omega

theorem find_parent_facts {z : List MergeRow} {n : Nat} (hwf : WF z n)
    {cs : List Nat} (hne : cs ≠ [])
    (hmem : ∀ x ∈ cs, n ≤ x ∧ x ≤ 2 * n - 3) :
    n ≤ find_parent z n cs ∧ find_parent z n cs ≤ 2 * n - 2 ∧
      find_parent z n cs = parent_spec z n cs := by
  have h2 := hwf.two_le
  have hlen := hwf.len
  set m := cs.foldl max 0 with hm
  obtain ⟨x0, hx0⟩ := List.exists_mem_of_ne_nil cs hne
  have hx0m : x0 ≤ m := (le_foldl_max cs 0).2 x0 hx0
  have hnm : n ≤ m := le_trans (hmem x0 hx0).1 hx0m
  have hmle : m ≤ 2 * n - 3 :=
    foldl_max_le cs 0 (2 * n - 3) (by omega) fun x hx => (hmem x hx).2
  have hproot : (cs.all fun cl => is_child (2 * n - 2) cl z) = true := by
    rw [List.all_eq_true]
    intro cl hcl
    rw [is_child_iff (wf_nleaves hwf)]
    right
    exact mem_links_root hwf cl (by have := hmem cl hcl; omega)
  have hsplit : List.range' (m + 1) (2 * n - 1 - (m + 1)) =
      List.range' (m + 1) (2 * n - 2 - (m + 1)) ++ [2 * n - 2] := by
    have hlen2 : 2 * n - 1 - (m + 1) = (2 * n - 2 - (m + 1)) + 1 := by omega
    rw [hlen2, List.range'_concat]
    have heq : (m + 1) + 1 * (2 * n - 2 - (m + 1)) = 2 * n - 2 := by omega
    rw [heq]
  have hcode : find_parent z n cs =
      ((List.range' (m + 1) (2 * n - 1 - (m + 1))).find? fun i =>
        cs.all fun cl => is_child i cl z).getD (2 * n - 1) := rfl
  have hspec : parent_spec z n cs =
      ((List.range' (m + 1) (2 * n - 2 - (m + 1))).find? fun i =>
        cs.all fun cl => is_child i cl z).getD (2 * n - 2) := rfl
  rw [hcode, hspec, hsplit, List.find?_append]
  cases hfind : (List.range' (m + 1) (2 * n - 2 - (m + 1))).find? fun i =>
      cs.all fun cl => is_child i cl z with
  | some i =>
    have hor : Option.or (some i)
        (List.find? (fun i => cs.all fun cl => is_child i cl z) [2 * n - 2]) =
        some i := rfl
    rw [hor]
    simp only [Option.getD_some]
    have hi := List.mem_of_find?_eq_some hfind
    rw [List.mem_range'_1] at hi
    exact ⟨by omega, by omega, trivial⟩
  | none =>
    have hsingle : List.find? (fun i => cs.all fun cl => is_child i cl z)
        [2 * n - 2] = some (2 * n - 2) :=
      List.find?_cons_of_pos _ hproot
    rw [hsingle]
    have hor : Option.or none (some (2 * n - 2)) = some (2 * n - 2) := rfl
    rw [hor]
    simp only [Option.getD_some, Option.getD_none]
    exact ⟨by omega, Nat.le_refl _, trivial⟩

theorem filter_clustering_single {n mcs mnc : Nat} {z : List MergeRow}
    {last : MergeRow} {c : Nat} (hlast : z.getLast? = some last)
    (hsel : select_clustids z n mcs mnc = [c]) :
    filter_clustering n z mcs mnc =
      some ([c], (last.dist - dist_of z n c) / last.dist) := by
  unfold filter_clustering
  rw [hlast, hsel]

theorem filter_clustering_no_cluster {n mcs mnc : Nat} {z : List MergeRow}
    {last : MergeRow} (hlast : z.getLast? = some last)
    (hsel : select_clustids z n mcs mnc = []) :
    filter_clustering n z mcs mnc = none := by
  unfold filter_clustering
  rw [hlast, hsel]

theorem filter_clustering_multi {n mcs mnc : Nat} {z : List MergeRow}
    {last : MergeRow} {c1 c2 : Nat} {rest : List Nat}
    (hlast : z.getLast? = some last)
    (hsel : select_clustids z n mcs mnc = c1 :: c2 :: rest)
    (hpar : find_parent z n (c1 :: c2 :: rest) - n < z.length) :
    filter_clustering n z mcs mnc =
      some (((c1 :: c2 :: rest).insertionSort (· ≤ ·)).take 2,
        (last.dist - ((c1 :: c2 :: rest).map (dist_of z n)).sum /
          (((c1 :: c2 :: rest).length : Nat) : ℚ)) / last.dist) := by
  unfold filter_clustering
  rw [hlast, hsel]
  have hroweq : z.get? (find_parent z n (c1 :: c2 :: rest) - n) =
      some (z.get ⟨find_parent z n (c1 :: c2 :: rest) - n, hpar⟩) :=
    List.get?_eq_get hpar
  dsimp only
  rw [hroweq]

theorem Lroot_eq {z : List MergeRow} {last : MergeRow}
    (hlast : z.getLast? = some last) : Lroot z = last.dist := by
  rw [Lroot, hlast]
  rfl

theorem desc_src_ge {z : List MergeRow} {n : Nat} :
    ∀ {a b : Nat}, Desc z n a b → n ≤ a := by
  intro a b h
  induction h with
  | left k hk => omega
  | right k hk => omega
  | trans a b c hab hbc ih1 ih2 => exact ih1

/-- Claim C1: on a well-formed merge matrix for which the candidate scan
selects exactly one cluster c, filter_clustering returns that cluster with
relevance (L - l) / L, where l is the merge distance of c and L the root merge
distance.  The six-point instance of the claim (selection of the 2-point merge
at distance 10 and relevance (L - 10) / L) is checked in the witness. -/
theorem claim_C1_single_relevance {z : List MergeRow} {n mcs mnc c : Nat}
    (hwf : WF z n) (hsel : select_clustids z n mcs mnc = [c]) :
    filter_clustering n z mcs mnc =
      some ([c], (Lroot z - dist_of z n c) / Lroot z) := by
  have hlast := List.getLast?_eq_getLast z (wf_ne_nil hwf)
  rw [Lroot_eq hlast]
  exact filter_clustering_single hlast hsel

/-- Witness for claim C1 at the six 1-D points [10, 20, 100, 200, 400, 1000]:
minClusterSize 2 and minNumClusters 1 select the merge of the points 10 and 20
(id 6, distance 10) and the relevance is (600 - 10) / 600 = 59 / 60. -/
theorem claim_C1_single_relevance_witness :
    select_clustids z6 6 2 1 = [6] ∧
    filter_clustering 6 z6 2 1 =
      some ([6], (Lroot z6 - dist_of z6 6 6) / Lroot z6) ∧
    (Lroot z6 - dist_of z6 6 6) / Lroot z6 = 59 / 60 := by
  refine ⟨by decide, claim_C1_single_relevance wf_z6 (by decide), ?_⟩
  have h1 : Lroot z6 = 600 := rfl
  have h2 : dist_of z6 6 6 = 10 := rfl
  rw [h1, h2]
  norm_num

/-- Claim C3 counterexample: with minNumClusters = 1 on the two-pair matrix
both size-2 rows are selected inside a single size pass (ids 4 and 5), and
filter_clustering then computes the relevance over these 2 > 1 clusters, so
the scan does not stop as soon as the count reaches minNumClusters. -/
theorem claim_C3_counterexample :
    select_clustids zEx4 4 2 1 = [4, 5] ∧
    filter_clustering 4 zEx4 2 1 =
      some ([4, 5], (3 - (1 + (2 + 0)) / 2) / 3) :=
  ⟨by decide, rfl⟩

/-- Claim C3 amended: the scan checks the minNumClusters bound only between
candidate sizes: once the selection has reached the bound at a size boundary,
all remaining size iterations leave it unchanged; within a single size no
check happens, so the selected count can exceed minNumClusters. -/
theorem claim_C3_amended (z : List MergeRow) (n mnc : Nat)
    (counts acc : List Nat) (h : mnc ≤ acc.length) :
    select_clustids_go z n mnc counts acc = acc := by
  cases counts with
  | nil => rfl
  | cons c cs => rw [select_clustids_go, if_pos h]

/-- Witness for claim C3 amended: with the bound 1 already reached by the
selection [4, 5], scanning the remaining size 3 changes nothing. -/
theorem claim_C3_amended_witness :
    1 ≤ ([4, 5] : List Nat).length ∧
    select_clustids_go zEx4 4 1 [3] [4, 5] = [4, 5] :=
  ⟨by decide, claim_C3_amended zEx4 4 1 [3] [4, 5] (by decide)⟩

/-- Claim C5 counterexample: on the six-point matrix (N = 6) the links list of
the root contains the 4 internal ids 6, 7, 8, 9 and not N - 1 = 5 of them:
the root never appears among its own descendants. -/
theorem claim_C5_counterexample :
    ((get_descendants z6 6 10).2.filter fun x => decide (6 ≤ x)).length = 4 ∧
    ¬((get_descendants z6 6 10).2.filter fun x => decide (6 ≤ x)).length =
      6 - 1 := by
  decide

/-- Claim C5 amended: for every well-formed matrix over n leaves, the root's
descendants contain exactly the n leaf ids, each exactly once, and the links
list enumerates every node id other than the root exactly once, hence exactly
n - 2 internal ids (not n - 1) besides the n leaf ids. -/
theorem claim_C5_amended {z : List MergeRow} {n : Nat} (hwf : WF z n) :
    (get_descendants z n (2 * n - 2)).1.Nodup ∧
    (∀ x, x ∈ (get_descendants z n (2 * n - 2)).1 ↔ x < n) ∧
    (get_descendants z n (2 * n - 2)).1.length = n ∧
    (get_descendants z n (2 * n - 2)).2.Nodup ∧
    (∀ x, x ∈ (get_descendants z n (2 * n - 2)).2 ↔ x < 2 * n - 2) ∧
    ((get_descendants z n (2 * n - 2)).2.filter
      fun x => decide (n ≤ x)).length = n - 2 :=
  ⟨(desc_nodup hwf.children_lt hwf.children_uniq _).1,
   leaves_root_iff hwf,
   leaves_root_length hwf,
   (desc_nodup hwf.children_lt hwf.children_uniq _).2,
   links_root_iff hwf,
   links_root_internal_length hwf⟩

/-- Witness for claim C5 amended on the six-point matrix: 6 leaves below the
root and 4 internal link ids. -/
theorem claim_C5_amended_witness :
    (get_descendants z6 6 (2 * 6 - 2)).1.length = 6 ∧
    ((get_descendants z6 6 (2 * 6 - 2)).2.filter
      fun x => decide (6 ≤ x)).length = 6 - 2 :=
  ⟨(claim_C5_amended wf_z6).2.2.1, (claim_C5_amended wf_z6).2.2.2.2.2⟩

/-- Claim C6 counterexample: is_child(0, 0, z6) returns True: a leaf id is
reported as its own descendant, so "a node is never its own ancestor" fails
for leaves. -/
theorem claim_C6_counterexample : is_child 0 0 z6 = true := by decide

/-- Claim C6 amended: on a well-formed matrix, is_child(p, p) is false for
every internal id p (for leaves it is true), and is_child(p, c) is true
whenever c is a strict descendant of p, i.e. is produced by an earlier merge
subsumed under p. -/
theorem claim_C6_amended {z : List MergeRow} {n : Nat} (hwf : WF z n) :
    (∀ p, n ≤ p → is_child p p z = false) ∧
    (∀ p c, Desc z n p c → is_child p c z = true) := by
  constructor
  · intro p hp
    rw [is_child_false_iff (wf_nleaves hwf)]
    constructor
    · intro hmem
      have := desc_le hwf.children_lt p p (Or.inl hmem)
      omega
    · intro hmem
      have := desc_le hwf.children_lt p p (Or.inr hmem)
      omega
  · intro p c hdesc
    induction hdesc with
    | left k hk =>
      rw [is_child_iff (wf_nleaves hwf)]
      right
      have hkk : n + k - n < z.length := by
        have : n + k - n = k := by omega
        rw [this]
        exact hk
      rw [get_descendants_node hwf.children_lt (by omega) hkk]
      have heq : (⟨n + k - n, hkk⟩ : Fin z.length) = ⟨k, hk⟩ :=
        Fin.ext (show n + k - n = k by omega)
      rw [heq]
      simp
    | right k hk =>
      rw [is_child_iff (wf_nleaves hwf)]
      right
      have hkk : n + k - n < z.length := by
        have : n + k - n = k := by omega
        rw [this]
        exact hk
      rw [get_descendants_node hwf.children_lt (by omega) hkk]
      have heq : (⟨n + k - n, hkk⟩ : Fin z.length) = ⟨k, hk⟩ :=
        Fin.ext (show n + k - n = k by omega)
      rw [heq]
      simp
    | trans a b c hab hbc ih1 ih2 =>
      have hbn : n ≤ b := desc_src_ge hbc
      rw [is_child_iff (wf_nleaves hwf)] at ih1 ih2 ⊢
      rcases ih1 with h | h
      · have := leaves_lt_n hwf.children_lt a b h
        omega
      · rcases ih2 with h2 | h2
        · exact Or.inl ((desc_sub hwf.children_lt a b h).1 h2)
        · exact Or.inr ((desc_sub hwf.children_lt a b h).2 h2)

/-- Witness for claim C6 amended on the six-point matrix: the root 10 is not
its own ancestor, and it is an ancestor of its direct child 5. -/
theorem claim_C6_amended_witness :
    is_child 10 10 z6 = false ∧ is_child 10 5 z6 = true := by
  refine ⟨(claim_C6_amended wf_z6).1 10 (by norm_num), ?_⟩
  exact (claim_C6_amended wf_z6).2 10 5 (Desc.left 4 (by decide))

/-- Claim C8: the degenerate all-identical-points matrix has root distance
L = 0, yet filter_clustering returns a normal result and performs the division
by L unguarded (numpy yields NaN silently; in the rational model the quotient
(0 - 0) / 0 collapses to 0): no undefined-relevance flagging happens. -/
theorem claim_C8_division_unguarded :
    Lroot zdeg3 = 0 ∧
    filter_clustering 3 zdeg3 2 1 = some ([3], (0 - 0) / 0) ∧
    filter_clustering 3 zdeg3 2 1 = some ([3], 0) := by
  refine ⟨rfl, rfl, ?_⟩
  have h : filter_clustering 3 zdeg3 2 1 = some ([3], (0 - 0) / 0) := rfl
  rw [h]
  norm_num

/-- Claim C9: the batch aggregator flips a predicted cluster count that
matches the ground truth but whose max precision is below the threshold
(1 becomes 2 and 2 becomes 1) before appending the relevance to the 2-slot
vector, and records the predicted count unchanged otherwise. -/
theorem claim_C9_precision_flip (prec precthresh : ℚ)
    (slots : List ℚ × List ℚ) (rel : ℚ) :
    (prec < precthresh →
      adjust_npred 1 1 prec precthresh = 2 ∧
      adjust_npred 2 2 prec precthresh = 1 ∧
      record_rel slots 1 1 prec precthresh rel = (slots.1, slots.2 ++ [rel]) ∧
      record_rel slots 2 2 prec precthresh rel = (slots.1 ++ [rel], slots.2)) ∧
    (∀ ngtruth npred, ngtruth ≠ npred →
      adjust_npred ngtruth npred prec precthresh = npred) ∧
    (∀ ngtruth npred, precthresh ≤ prec →
      adjust_npred ngtruth npred prec precthresh = npred) := by
  refine ⟨?_, ?_, ?_⟩
  · intro hlt
    have h1 : adjust_npred 1 1 prec precthresh = 2 := by
      rw [adjust_npred, if_pos ⟨rfl, hlt⟩]
    have h2 : adjust_npred 2 2 prec precthresh = 1 := by
      rw [adjust_npred, if_pos ⟨rfl, hlt⟩]
    refine ⟨h1, h2, ?_, ?_⟩
    · rw [record_rel, h1]
      norm_num
    · rw [record_rel, h2]
      norm_num
  · intro ngtruth npred hne
    rw [adjust_npred, if_neg]
    intro hcontra
    exact hne hcontra.1
  · intro ngtruth npred hge
    rw [adjust_npred, if_neg]
    intro hcontra
    exact absurd hcontra.2 (not_lt.mpr hge)

/-- Witness for claim C9 with threshold 7/10: precision 1/2 flips both
matching counts (and routes the relevance to the other slot), a mismatched
count is unchanged, and precision 9/10 leaves a matching count unchanged. -/
theorem claim_C9_precision_flip_witness :
    adjust_npred 1 1 (1 / 2) (7 / 10) = 2 ∧
    record_rel ([], []) 2 2 (1 / 2) (7 / 10) (3 / 4) = ([3 / 4], []) ∧
    adjust_npred 1 2 (1 / 2) (7 / 10) = 2 ∧
    adjust_npred 2 2 (9 / 10) (7 / 10) = 2 := by
  have hlt : (1 : ℚ) / 2 < 7 / 10 := by norm_num
  obtain ⟨hflip, hneq, -⟩ :=
    claim_C9_precision_flip (1 / 2) (7 / 10) ([], []) (3 / 4)
  refine ⟨(hflip hlt).1, ?_, hneq 1 2 (by norm_num), ?_⟩
  · have h := (hflip hlt).2.2.2
    simpa using h
  · exact (claim_C9_precision_flip (9 / 10) (7 / 10) ([], []) (3 / 4)).2.2 2 2
      (by norm_num)

theorem filter_multi_result {z : List MergeRow} {n mcs mnc : Nat}
    (hwf : WF z n) (hlen2 : 2 ≤ (select_clustids z n mcs mnc).length) :
    filter_clustering n z mcs mnc =
      some (((select_clustids z n mcs mnc).insertionSort (· ≤ ·)).take 2,
        (Lroot z - ((select_clustids z n mcs mnc).map (dist_of z n)).sum /
          ((select_clustids z n mcs mnc).length : ℚ)) / Lroot z) := by
  have hlast := List.getLast?_eq_getLast z (wf_ne_nil hwf)
  obtain ⟨c1, c2, rest, hsel⟩ : ∃ c1 c2 rest,
      select_clustids z n mcs mnc = c1 :: c2 :: rest := by
    match hshape : select_clustids z n mcs mnc with
    | [] =>
      rw [hshape] at hlen2
      simp at hlen2
    | [c] =>
      rw [hshape] at hlen2
      simp at hlen2
    | c1 :: c2 :: rest => exact ⟨c1, c2, rest, rfl⟩
  have hmem : ∀ y ∈ c1 :: c2 :: rest, n ≤ y ∧ y ≤ 2 * n - 3 := by
    intro y hy
    refine @select_mem_range z n mcs mnc y hwf ?_
    rw [hsel]
    exact hy
  have hfacts := find_parent_facts hwf (List.cons_ne_nil _ _) hmem
  have hpar : find_parent z n (c1 :: c2 :: rest) - n < z.length := by
    have h1 := hfacts.1
    have h2 := hfacts.2.1
    have h3 := hwf.len
    have h4 := hwf.two_le
    omega
  rw [Lroot_eq hlast, hsel]
  exact filter_clustering_multi hlast hsel hpar

/-- Claim C2: when the scan selects two or more clusters on a well-formed
matrix, the parent computed by filter_clustering equals the spec's parent (the
smallest id in [max(selected) + 1, root - 1] that is an ancestor of every
selected id, with the root as fallback), and the function returns the sorted
2-truncated id list with relevance (L - acc) / L, where acc is the mean of
the selected clusters' merge distances. -/
theorem claim_C2_multi_relevance {z : List MergeRow} {n mcs mnc : Nat}
    (hwf : WF z n) (hlen2 : 2 ≤ (select_clustids z n mcs mnc).length) :
    find_parent z n (select_clustids z n mcs mnc) =
      parent_spec z n (select_clustids z n mcs mnc) ∧
    filter_clustering n z mcs mnc =
      some (((select_clustids z n mcs mnc).insertionSort (· ≤ ·)).take 2,
        (Lroot z - ((select_clustids z n mcs mnc).map (dist_of z n)).sum /
          ((select_clustids z n mcs mnc).length : ℚ)) / Lroot z) := by
  refine ⟨?_, filter_multi_result hwf hlen2⟩
  obtain ⟨c1, c2, rest, hsel⟩ : ∃ c1 c2 rest,
      select_clustids z n mcs mnc = c1 :: c2 :: rest := by
    match hshape : select_clustids z n mcs mnc with
    | [] =>
      rw [hshape] at hlen2
      simp at hlen2
    | [c] =>
      rw [hshape] at hlen2
      simp at hlen2
    | c1 :: c2 :: rest => exact ⟨c1, c2, rest, rfl⟩
  have hmem : ∀ y ∈ c1 :: c2 :: rest, n ≤ y ∧ y ≤ 2 * n - 3 := by
    intro y hy
    refine @select_mem_range z n mcs mnc y hwf ?_
    rw [hsel]
    exact hy
  have hfacts := find_parent_facts hwf (List.cons_ne_nil _ _) hmem
  rw [hsel]
  exact hfacts.2.2

/-- Witness for claim C2 on the two-pair matrix with minClusterSize 2 and
minNumClusters 2: ids 4 and 5 are selected, the computed parent agrees with
the spec's parent, and the relevance is (3 - (1 + 2) / 2) / 3 = 1 / 2. -/
theorem claim_C2_multi_relevance_witness :
    2 ≤ (select_clustids zEx4 4 2 2).length ∧
    find_parent zEx4 4 (select_clustids zEx4 4 2 2) =
      parent_spec zEx4 4 (select_clustids zEx4 4 2 2) ∧
    filter_clustering 4 zEx4 2 2 = some ([4, 5], 1 / 2) := by
  have h := @claim_C2_multi_relevance zEx4 4 2 2 wf_zEx4 (by decide)
  refine ⟨by decide, h.1, ?_⟩
  have hval : filter_clustering 4 zEx4 2 2 =
      some ([4, 5], (3 - (1 + (2 + 0)) / 2) / 3) := rfl
  rw [hval]
  norm_num

/-- Claim C4: on a well-formed matrix the selected cluster ids are pairwise
non-ancestor-descendant, and whenever two or more clusters were selected the
returned clusterIds list is the ascending sort of the selection truncated to
its first 2 entries, hence sorted and of length at most 2. -/
theorem claim_C4_selection_invariants {z : List MergeRow} {n mcs mnc : Nat}
    (hwf : WF z n) :
    (∀ a ∈ select_clustids z n mcs mnc, ∀ b ∈ select_clustids z n mcs mnc,
      a ≠ b → is_child a b z = false ∧ is_child b a z = false) ∧
    (∀ ids rel, 2 ≤ (select_clustids z n mcs mnc).length →
      filter_clustering n z mcs mnc = some (ids, rel) →
      ids = ((select_clustids z n mcs mnc).insertionSort (· ≤ ·)).take 2 ∧
      ids.Sorted (· ≤ ·) ∧ ids.length ≤ 2) := by
  constructor
  · have hpw := @select_pairwise z n mcs mnc hwf
    have hsymm : Symmetric fun a c : Nat =>
        is_child a c z = false ∧ is_child c a z = false :=
      fun a c h => ⟨h.2, h.1⟩
    intro a ha b hb hab
    exact List.Pairwise.forall hsymm hpw ha hb hab
  · intro ids rel hlen2 hret
    have h := filter_multi_result hwf hlen2
    rw [h] at hret
    simp only [Option.some.injEq, Prod.mk.injEq] at hret
    obtain ⟨hids, -⟩ := hret
    subst hids
    refine ⟨rfl, ?_, ?_⟩
    · exact (List.sorted_insertionSort (· ≤ ·) _).sublist
        (List.take_sublist _ _)
    · exact List.length_take_le _ _

/-- Witness for claim C4 on the two-pair matrix: the two selected ids 4 and 5
are mutually non-ancestral, and the returned list [4, 5] is sorted with at
most 2 entries. -/
theorem claim_C4_selection_invariants_witness :
    (is_child 4 5 zEx4 = false ∧ is_child 5 4 zEx4 = false) ∧
    ([4, 5] : List Nat).Sorted (· ≤ ·) ∧ ([4, 5] : List Nat).length ≤ 2 := by
  have h := @claim_C4_selection_invariants zEx4 4 2 2 wf_zEx4
  refine ⟨h.1 4 (by decide) 5 (by decide) (by decide), ?_⟩
  have h2 := h.2 [4, 5] ((3 - (1 + (2 + 0)) / 2) / 3) (by decide) rfl
  exact ⟨h2.2.1, h2.2.2⟩

/-- Claim C7 counterexample: on the two-pair matrix with minClusterSize 3 the
smallest merge of size at least 3 is the root (size 4), but filter_clustering
with minNumClusters 1 does not return the root cluster with relevance 0: the
scan covers sizes 3 only, selects nothing, and the function fails (np.max of
an empty selection). -/
theorem claim_C7_counterexample : filter_clustering 4 zEx4 3 1 = none := by
  decide

/-- Claim C7 amended: on a well-formed matrix in which the root row is the
only merge of size at least minClusterSize, the scan (which covers sizes
minClusterSize through n - 1 only and so never reaches the root's size n)
selects nothing, and filter_clustering fails with none (modelling the np.max
crash on the empty selection) instead of returning the root cluster. -/
theorem claim_C7_amended {z : List MergeRow} {n mcs : Nat} (hwf : WF z n)
    (honly : ∀ k (hk : k < z.length), mcs ≤ (z.get ⟨k, hk⟩).size → k = n - 2) :
    filter_clustering n z mcs 1 = none := by
  have hlast := List.getLast?_eq_getLast z (wf_ne_nil hwf)
  have hjoin : ∀ c, mcs ≤ c → c ≤ n - 1 → joininds z c = [] := by
    intro c hc1 hc2
    rw [joininds, List.filter_eq_nil_iff]
    intro k hk
    rw [List.mem_range] at hk
    rw [List.get?_eq_get hk]
    simp only [Bool.not_eq_true, beq_eq_false_iff_ne, ne_eq]
    intro hsize
    have hkroot : k = n - 2 := honly k hk (by omega)
    subst hkroot
    rw [root_row_size hwf hk] at hsize
    have h2 := hwf.two_le
    omega
  have hsel : select_clustids z n mcs 1 = [] := by
    rw [select_clustids]
    have hcounts : ∀ c ∈ List.range' mcs (n - mcs), joininds z c = [] := by
      intro c hc
      rw [List.mem_range'_1] at hc
      exact hjoin c (by omega) (by omega)
    generalize List.range' mcs (n - mcs) = counts at hcounts
    induction counts with
    | nil => rfl
    | cons c cs ihc =>
      rw [select_clustids_go, if_neg (by simp)]
      have hscan : scan_size z n c [] = [] := by
        rw [scan_size, hcounts c (List.mem_cons_self c cs)]
        rfl
      rw [hscan]
      exact ihc fun c2 hc2 => hcounts c2 (List.mem_cons_of_mem c hc2)
  exact filter_clustering_no_cluster hlast hsel

/-- Witness for claim C7 amended: on the two-pair matrix only the root row has
size at least 3, and the call fails with none. -/
theorem claim_C7_amended_witness :
    (∀ k (hk : k < zEx4.length), 3 ≤ (zEx4.get ⟨k, hk⟩).size → k = 4 - 2) ∧
    filter_clustering 4 zEx4 3 1 = none := by
  have honly : ∀ k (hk : k < zEx4.length),
      3 ≤ (zEx4.get ⟨k, hk⟩).size → k = 4 - 2 := by decide
  exact ⟨honly, claim_C7_amended wf_zEx4 honly⟩

/-- Claim C10: whenever filter_clustering returns normally on a well-formed
matrix over n leaves, every returned cluster id is an internal non-root merge
id, i.e. lies in [n, 2n - 3]: a leaf id is never returned and the root id
2n - 2 is never selected, since only rows with size in [minClusterSize, n - 1]
are scanned and the root row has size n. -/
theorem claim_C10_internal_ids {z : List MergeRow} {n mcs mnc : Nat}
    (hwf : WF z n) (ids : List Nat) (rel : ℚ)
    (hret : filter_clustering n z mcs mnc = some (ids, rel)) :
    ∀ x ∈ ids, n ≤ x ∧ x ≤ 2 * n - 3 := by
  have hlast := List.getLast?_eq_getLast z (wf_ne_nil hwf)
  intro x hx
  match hsel : select_clustids z n mcs mnc with
  | [] =>
    rw [filter_clustering_no_cluster hlast hsel] at hret
    exact Option.noConfusion hret
  | [c] =>
    rw [filter_clustering_single hlast hsel] at hret
    simp only [Option.some.injEq, Prod.mk.injEq] at hret
    obtain ⟨hids, -⟩ := hret
    rw [← hids] at hx
    have hxc : x = c := by simpa using hx
    subst hxc
    refine @select_mem_range z n mcs mnc x hwf ?_
    rw [hsel]
    simp
  | c1 :: c2 :: rest =>
    have hmem : ∀ y ∈ c1 :: c2 :: rest, n ≤ y ∧ y ≤ 2 * n - 3 := by
      intro y hy
      refine @select_mem_range z n mcs mnc y hwf ?_
      rw [hsel]
      exact hy
    have hfacts := find_parent_facts hwf (List.cons_ne_nil _ _) hmem
    have hpar : find_parent z n (c1 :: c2 :: rest) - n < z.length := by
      have h1 := hfacts.1
      have h2 := hfacts.2.1
      have h3 := hwf.len
      have h4 := hwf.two_le
      omega
    rw [filter_clustering_multi hlast hsel hpar] at hret
    simp only [Option.some.injEq, Prod.mk.injEq] at hret
    obtain ⟨hids, -⟩ := hret
    rw [← hids] at hx
    have hx2 : x ∈ (c1 :: c2 :: rest).insertionSort (· ≤ ·) :=
      List.mem_of_mem_take hx
    have hx3 : x ∈ c1 :: c2 :: rest :=
      (List.perm_insertionSort (· ≤ ·) _).mem_iff.mp hx2
    exact hmem x hx3

/-- Witness for claim C10 on the two-pair matrix: the returned ids 4 and 5 lie
in [4, 2 * 4 - 3] = [4, 5]. -/
theorem claim_C10_internal_ids_witness :
    filter_clustering 4 zEx4 2 2 =
      some ([4, 5], (3 - (1 + (2 + 0)) / 2) / 3) ∧
    (4 ≤ 4 ∧ 4 ≤ 2 * 4 - 3) ∧ (4 ≤ 5 ∧ 5 ≤ 2 * 4 - 3) := by
  refine ⟨rfl, ?_, ?_⟩
  · exact @claim_C10_internal_ids zEx4 4 2 2 wf_zEx4 [4, 5]
      ((3 - (1 + (2 + 0)) / 2) / 3) rfl 4 (by decide)
  · exact @claim_C10_internal_ids zEx4 4 2 2 wf_zEx4 [4, 5]
      ((3 - (1 + (2 + 0)) / 2) / 3) rfl 5 (by decide)
